import Mathlib

/-!
Shallow embedding of the `vods-rs` repository (a Twitch VOD playlist
recovery tool) and proofs about it.

Modelling conventions:
* Rust `Result<T, E>` becomes `Except E T`; `Option` becomes `Option`.
* The async race combinator `get_first_ok_bounded` (src/first_ok/mod.rs)
  forwards each checker outcome over a capacity-1 channel to a sequential
  aggregator (`process_item_responses`).  The aggregator is embedded
  directly; the nondeterministic completion order of the workers is
  abstracted as an explicit `stream : List (Except E T)` parameter, the
  outcomes listed in completion order.  Because every item's outcome is
  delivered exactly once (the workers only stop sending after the
  aggregator has committed to a result), a feasible completion stream is a
  permutation of the checker results; theorems carry that as a hypothesis.
  With `concurrent = 1` a single worker processes the items sequentially,
  so the completion stream equals the checker results in input order.
* Strings are modelled as `List Char`.  The inputs relevant to the claims
  are ASCII, where Rust's byte indices coincide with char indices.
* Network effects (`reqwest`) are abstracted as oracle functions giving
  each request's outcome.
-/

namespace Vods

instance {E A : Type} [DecidableEq E] [DecidableEq A] : DecidableEq (Except E A) := fun x y =>
  match x, y with
  | .ok a, .ok b =>
    if h : a = b then isTrue (by rw [h]) else isFalse (fun hh => h (by cases hh; rfl))
  | .error e, .error f =>
    if h : e = f then isTrue (by rw [h]) else isFalse (fun hh => h (by cases hh; rfl))
  | .ok _, .error _ => isFalse (fun hh => by cases hh)
  | .error _, .ok _ => isFalse (fun hh => by cases hh)

/-! ### The race combinator, src/first_ok/mod.rs -/

/-- Embedding of the aggregator loop body of `process_item_responses`
(src/first_ok/mod.rs lines 38-61): `fuel` is the remaining loop
iterations, `stream` the results still to be received (an exhausted
stream models the channel returning `None`), `acc` the `result`
accumulator variable. -/
def processLoop {T E : Type} : Nat → List (Except E T) → Option (Except E T) → Option (Except E T)
  | 0, _, acc => acc
  | _ + 1, [], acc => acc
  | n + 1, r :: rest, acc =>
    match r with
    | .ok v => some (.ok v)
    | .error e =>
      let _ := acc
      processLoop n rest (some (.error e))

/-- `process_item_responses` (src/first_ok/mod.rs lines 38-61): loop at
most `length` times over received outcomes, stopping at the first `Ok`,
otherwise recording each `Err` over the previous one. -/
def process_item_responses {T E : Type} (length : Nat) (stream : List (Except E T)) :
    Option (Except E T) :=
  processLoop length stream none

/-- `get_first_ok_bounded` (src/first_ok/mod.rs lines 68-110).  The
`concurrent` parameter fixes the number of workers (0 meaning one per
item); in this pure embedding it influences only which completion
streams are feasible (see the module comment), so the value itself is
not consumed.  The aggregator reads at most `items.length` outcomes from
the completion stream. -/
def get_first_ok_bounded {I T E : Type} (items : List I) (concurrent : Nat)
    (checker : I → Except E T) (stream : List (Except E T)) : Option (Except E T) :=
  process_item_responses items.length stream

/-! ### The transient retry wrapper, src/parse/mod.rs lines 66-77 -/

/-- `retry_on_error` (src/parse/mod.rs lines 66-77).  The effectful
`doer` closure is modelled as an oracle from the invocation index (0 for
the first call, 1 for the retry) to that invocation's outcome.  The
returned pair is (final result, number of invocations performed). -/
def retry_on_error {T E : Type} (doer : Nat → Except E T) : Except E T × Nat :=
  match doer 0 with
  | .ok good => (.ok good, 1)
  | .error _ => (doer 1, 2)

/-! ### Decimal rendering and parsing of integers

Rust renders the i64 timestamp with `to_string` and parses it back with
`str::parse::<i64>` (src/parse/mod.rs lines 98 and 152). -/

/-- The ASCII character of a decimal digit. -/
def digitChar (d : Nat) : Char := Char.ofNat (48 + d)

/-- Decimal digits of a natural number, most significant first, with
structural fuel (`natToChars` supplies enough fuel). -/
def natToCharsCore : Nat → Nat → List Char → List Char
  | 0, _, acc => acc
  | fuel + 1, n, acc =>
    if n < 10 then digitChar n :: acc
    else natToCharsCore fuel (n / 10) (digitChar (n % 10) :: acc)

/-- Decimal rendering of a natural number, as `u64::to_string`. -/
def natToChars (n : Nat) : List Char := natToCharsCore (n + 1) n []

/-- Decimal rendering of an integer, as `i64::to_string`. -/
def intToChars (i : Int) : List Char :=
  if i < 0 then '-' :: natToChars (-i).toNat else natToChars i.toNat

/-- The value of an ASCII decimal digit, `none` on any other char. -/
def digitVal? (c : Char) : Option Nat :=
  if 48 ≤ c.toNat ∧ c.toNat ≤ 57 then some (c.toNat - 48) else none

/-- Accumulator loop of decimal parsing. -/
def parseNatAux : List Char → Nat → Option Nat
  | [], acc => some acc
  | c :: rest, acc =>
    match digitVal? c with
    | some d => parseNatAux rest (acc * 10 + d)
    | none => none

/-- `str::parse::<i64>`: an optional sign followed by at least one digit,
rejecting values outside the i64 range. -/
def parseInt64 (cs : List Char) : Option Int :=
  match cs with
  | [] => none
  | c :: rest =>
    if c = '-' then
      match rest with
      | [] => none
      | _ :: _ =>
        match parseNatAux rest 0 with
        | some n => if (n : Int) ≤ 9223372036854775808 then some (-(n : Int)) else none
        | none => none
    else if c = '+' then
      match rest with
      | [] => none
      | _ :: _ =>
        match parseNatAux rest 0 with
        | some n => if (n : Int) ≤ 9223372036854775807 then some (n : Int) else none
        | none => none
    else
      match parseNatAux (c :: rest) 0 with
      | some n => if (n : Int) ≤ 9223372036854775807 then some (n : Int) else none
      | none => none

/-! ### SHA-1, as used by the `sha1` crate in `get_url_path_helper`

Machine words are `Nat` reduced modulo `2 ^ 32` where overflow matters. -/

/-- UTF-8 encoding of one scalar value (Rust hashes the `&str` bytes). -/
def utf8Encode (c : Char) : List Nat :=
  let n := c.toNat
  if n < 128 then [n]
  else if n < 2048 then [192 + n / 64, 128 + n % 64]
  else if n < 65536 then [224 + n / 4096, 128 + (n / 64) % 64, 128 + n % 64]
  else [240 + n / 262144, 128 + (n / 4096) % 64, 128 + (n / 64) % 64, 128 + n % 64]

/-- UTF-8 bytes of a string. -/
def strBytes (cs : List Char) : List Nat := (cs.map utf8Encode).flatten

/-- Left rotation of a 32-bit word. -/
def rotl32 (n x : Nat) : Nat := ((x <<< n) ||| (x >>> (32 - n))) % 4294967296

/-- The SHA-1 round function. -/
def sha1F (t b c d : Nat) : Nat :=
  if t < 20 then (b &&& c) ||| ((b ^^^ 4294967295) &&& d)
  else if t < 40 then (b ^^^ c) ^^^ d
  else if t < 60 then ((b &&& c) ||| (b &&& d)) ||| (c &&& d)
  else (b ^^^ c) ^^^ d

/-- The SHA-1 round constants. -/
def sha1K (t : Nat) : Nat :=
  if t < 20 then 1518500249
  else if t < 40 then 1859775393
  else if t < 60 then 2400959708
  else 3395469782

/-- Big-endian bytes of a 32-bit word. -/
def be32 (x : Nat) : List Nat :=
  [(x >>> 24) % 256, (x >>> 16) % 256, (x >>> 8) % 256, x % 256]

/-- Big-endian bytes of a 64-bit word. -/
def be64 (x : Nat) : List Nat :=
  [(x >>> 56) % 256, (x >>> 48) % 256, (x >>> 40) % 256, (x >>> 32) % 256,
   (x >>> 24) % 256, (x >>> 16) % 256, (x >>> 8) % 256, x % 256]

/-- Group bytes into big-endian 32-bit words. -/
def toWords : List Nat → List Nat
  | b0 :: b1 :: b2 :: b3 :: rest => (((b0 * 256 + b1) * 256 + b2) * 256 + b3) :: toWords rest
  | _ => []

/-- Extend the 16 words of a block to 80 (fuel counts the words added). -/
def sha1ExtendCore : Nat → List Nat → List Nat
  | 0, w => w
  | fuel + 1, w =>
    let i := w.length
    let x := rotl32 1 ((((w.getD (i - 3) 0).xor (w.getD (i - 8) 0)).xor
      (w.getD (i - 14) 0)).xor (w.getD (i - 16) 0))
    sha1ExtendCore fuel (w ++ [x])

/-- The 80 compression rounds; `t` is the current round index. -/
def sha1Rounds : Nat → Nat → List Nat → Nat × Nat × Nat × Nat × Nat → Nat × Nat × Nat × Nat × Nat
  | 0, _, _, st => st
  | fuel + 1, t, w, (a, b, c, d, e) =>
    let temp := (rotl32 5 a + sha1F t b c d + e + sha1K t + w.getD t 0) % 4294967296
    sha1Rounds fuel (t + 1) w (temp, a, rotl32 30 b, c, d)

/-- Process one 64-byte block. -/
def sha1Block (h : Nat × Nat × Nat × Nat × Nat) (block : List Nat) :
    Nat × Nat × Nat × Nat × Nat :=
  let w := sha1ExtendCore 64 (toWords block)
  match h with
  | (h0, h1, h2, h3, h4) =>
    match sha1Rounds 80 0 w (h0, h1, h2, h3, h4) with
    | (a, b, c, d, e) =>
      ((h0 + a) % 4294967296, (h1 + b) % 4294967296, (h2 + c) % 4294967296,
       (h3 + d) % 4294967296, (h4 + e) % 4294967296)

/-- Merkle-Damgard padding: a 0x80 byte, zeros to 56 mod 64, and the
bit length as a big-endian 64-bit word. -/
def sha1PadBytes (msg : List Nat) : List Nat :=
  let len := msg.length
  msg ++ 128 :: List.replicate ((120 - ((len + 1) % 64)) % 64) 0 ++ be64 (len * 8)

/-- Split into 64-byte blocks (fuel bounds the recursion structurally). -/
def toBlocksCore : Nat → List Nat → List (List Nat)
  | 0, _ => []
  | fuel + 1, bs => if bs = [] then [] else bs.take 64 :: toBlocksCore fuel (bs.drop 64)

/-- The SHA-1 digest (20 bytes) of a byte string. -/
def sha1 (msg : List Nat) : List Nat :=
  let padded := sha1PadBytes msg
  match (toBlocksCore padded.length padded).foldl sha1Block
      (1732584193, 4023233417, 2562383102, 271733878, 3285377520) with
  | (h0, h1, h2, h3, h4) => be32 h0 ++ be32 h1 ++ be32 h2 ++ be32 h3 ++ be32 h4

/-- Lower-case hex character of a value below 16. -/
def hexDigitChar (d : Nat) : Char :=
  if d < 10 then Char.ofNat (48 + d) else Char.ofNat (87 + d)

/-- `hex::encode`: two lower-case hex characters per byte. -/
def hexEncode (bs : List Nat) : List Char :=
  (bs.map (fun b => [hexDigitChar (b / 16), hexDigitChar (b % 16)])).flatten

/-! ### The data model of src/parse/mod.rs

Strings (`Arc<String>`, `&str`) become `List Char`; `chrono`'s
`NaiveDateTime` becomes the signed unix timestamp it wraps. -/

structure VideoData where
  streamer_name : List Char
  video_id : List Char
  unix_time_seconds : Int
deriving DecidableEq, Repr

structure VideoPath where
  url_path : List Char
  video_data : VideoData
deriving DecidableEq, Repr

structure DomainWithPath where
  domain : List Char
  path : VideoPath
deriving DecidableEq, Repr

structure DomainWithPaths where
  domain : List Char
  paths : List VideoPath
deriving DecidableEq, Repr

/-- The winning pair and the response body (`ValidDwpResponse`). -/
structure ValidDwpResponse (Body : Type) where
  dwp : DomainWithPath
  body : Body
deriving DecidableEq, Repr

/-- The dynamic `anyhow::Error` values that can appear in the probing
chain: the "no urls" context (src/parse/mod.rs line 219), the
"no domains supplied" error (src/main.rs line 132), and any error coming
out of a network request (`net`). -/
inductive AError (E : Type) where
  | noUrls
  | noDomainsSupplied
  | net (e : E)
deriving DecidableEq, Repr

/-- `VideoData::get_url_path_helper` (src/parse/mod.rs lines 158-174):
hash the base string, hex-encode, keep the first 20 characters, prepend
to the base string with an underscore. -/
def VideoData.get_url_path_helper (vd : VideoData) (time_to_string : Int → List Char) :
    List Char :=
  let base_url := vd.streamer_name ++ '_' :: vd.video_id ++ '_' ::
    time_to_string vd.unix_time_seconds
  let hash := hexEncode (sha1 (strBytes base_url))
  hash.take 20 ++ '_' :: base_url

/-- `VideoData::get_url_path` (src/parse/mod.rs lines 150-156): unix mode
renders the full timestamp, the other mode the seconds-of-minute
component (`chrono`'s `second()` is the euclidean remainder mod 60). -/
def VideoData.get_url_path (vd : VideoData) (to_unix : Bool) : List Char :=
  if to_unix then vd.get_url_path_helper (fun t => intToChars t)
  else vd.get_url_path_helper (fun t => natToChars (t.emod 60).toNat)

/-- `VideoData::get_video_path` (src/parse/mod.rs lines 143-148). -/
def VideoData.get_video_path (vd : VideoData) (to_unix : Bool) : VideoPath :=
  ⟨vd.get_url_path to_unix, vd⟩

/-- `VideoData::with_offset` (src/parse/mod.rs lines 176-182). -/
def VideoData.with_offset (vd : VideoData) (seconds : Int) : VideoData :=
  { vd with unix_time_seconds := vd.unix_time_seconds + seconds }

/-- `VideoData::get_domain_with_paths_list` (src/parse/mod.rs lines
184-201): one path per offset in `0..seconds`, shared by every domain. -/
def VideoData.get_domain_with_paths_list (vd : VideoData) (domains : List (List Char))
    (seconds : Int) (to_unix : Bool) : List DomainWithPaths :=
  let video_paths := (List.range seconds.toNat).map
    (fun i => (vd.with_offset i).get_video_path to_unix)
  domains.map (fun domain => ⟨domain, video_paths⟩)

/-! ### URL path parsing, src/parse/mod.rs lines 80-106 -/

/-- Indices (counting from `i`) of the underscores of a string; embeds
`char_indices().filter(c == '_')`.  The claims' inputs are ASCII, where
Rust's byte indices coincide with these character indices. -/
def underscoreIndicesFrom (i : Nat) : List Char → List Nat
  | [] => []
  | c :: cs =>
    if c = '_' then i :: underscoreIndicesFrom (i + 1) cs
    else underscoreIndicesFrom (i + 1) cs

def underscoreIndices (cs : List Char) : List Nat := underscoreIndicesFrom 0 cs

/-- Modelled `chrono` range bound: the timestamp of
`NaiveDateTime::MIN` (no claim depends on the exact endpoint). -/
def naiveDateTimeMin : Int := -8334632851200

/-- Modelled `chrono` range bound: the timestamp of
`NaiveDateTime::MAX` (no claim depends on the exact endpoint). -/
def naiveDateTimeMax : Int := 8210298412799

/-- `NaiveDateTime::from_timestamp_opt(t, 0)`: `t` itself when
representable, `None` otherwise. -/
def from_timestamp_opt (t : Int) : Option Int :=
  if naiveDateTimeMin ≤ t ∧ t ≤ naiveDateTimeMax then some t else none

/-- `url_path_to_video_data` (src/parse/mod.rs lines 80-106): the
streamer name sits between the first underscore and the second-to-last
one, the video id between the last two, the timestamp after the last. -/
def url_path_to_video_data (url_path : List Char) : Except String VideoData :=
  let all_underscore_indices := underscoreIndices url_path
  let num_underscores := all_underscore_indices.length
  if num_underscores < 3 then .error "url path does not have enough underscores"
  else
    let i0 := all_underscore_indices.getD 0 0
    let i1 := all_underscore_indices.getD (num_underscores - 2) 0
    let i2 := all_underscore_indices.getD (num_underscores - 1) 0
    let streamer_name := (url_path.drop (i0 + 1)).take (i1 - (i0 + 1))
    let video_id := (url_path.drop (i1 + 1)).take (i2 - (i1 + 1))
    let unix_time_string := url_path.drop (i2 + 1)
    match parseInt64 unix_time_string with
    | none => .error "invalid digit found in string"
    | some unix_time_int =>
      match from_timestamp_opt unix_time_int with
      | none => .error "unix time out of range"
      | some time => .ok ⟨streamer_name, video_id, time⟩

/-! ### The probing chain, src/parse/mod.rs lines 204-299 and
src/main.rs lines 117-134

The network is an oracle `probe : DomainWithPath → Except E Body` giving
the outcome of `get_m3u8_body`'s request sequence (retry plus status
check) for each candidate. -/

/-- `DomainWithPath::get_index_dvr_url` (src/parse/mod.rs lines 270-275). -/
def DomainWithPath.get_index_dvr_url (dwp : DomainWithPath) : List Char :=
  dwp.domain ++ dwp.path.url_path ++ ("/chunked/index-dvr.m3u8".toList)

/-- `DomainWithPath::get_m3u8_body` (src/parse/mod.rs lines 289-298),
with the request outcome supplied by the oracle and the resulting
`anyhow` error injected into `AError.net`. -/
def DomainWithPath.get_m3u8_body {E Body : Type} (dwp : DomainWithPath)
    (probe : DomainWithPath → Except E Body) : Except (AError E) Body :=
  match probe dwp with
  | .ok b => .ok b
  | .error e => .error (.net e)

/-- `DomainWithPaths::to_list_of_domain_with_path` (src/parse/mod.rs
lines 205-213). -/
def DomainWithPaths.to_list_of_domain_with_path (dwps : DomainWithPaths) :
    List DomainWithPath :=
  dwps.paths.map (fun path => ⟨dwps.domain, path⟩)

/-- The checker closure of the inner per-domain race (src/parse/mod.rs
lines 231-234). -/
def innerChecker {E Body : Type} (probe : DomainWithPath → Except E Body)
    (item : DomainWithPath) : Except (AError E) (ValidDwpResponse Body) :=
  match item.get_m3u8_body probe with
  | .ok body => .ok ⟨item, body⟩
  | .error e => .error e

/-- `DomainWithPaths::get_first_valid_dwp` (src/parse/mod.rs lines
217-242): pop the last candidate and request it eagerly; on success
return it, otherwise race the remaining candidates with concurrency 0
and fall back to the eager error if there were none. -/
def DomainWithPaths.get_first_valid_dwp {E Body : Type} (dwps : DomainWithPaths)
    (probe : DomainWithPath → Except E Body)
    (stream : List (Except (AError E) (ValidDwpResponse Body))) :
    Except (AError E) (ValidDwpResponse Body) :=
  match dwps.to_list_of_domain_with_path.getLast? with
  | none => .error .noUrls
  | some last =>
    match last.get_m3u8_body probe with
    | .ok body => .ok ⟨last, body⟩
    | .error err =>
      match get_first_ok_bounded dwps.to_list_of_domain_with_path.dropLast 0
          (innerChecker probe) stream with
      | some result => result
      | none => .error err

/-- The free function `get_first_valid_dwp` (src/parse/mod.rs lines
247-259): the outer race over domains, each domain's operation being the
whole per-domain probe.  `inner` supplies each domain's inner completion
stream, `outer` the outer race's completion stream. -/
def get_first_valid_dwp {E Body : Type} (domain_with_paths_list : List DomainWithPaths)
    (probe : DomainWithPath → Except E Body)
    (inner : DomainWithPaths → List (Except (AError E) (ValidDwpResponse Body)))
    (outer : List (Except (AError E) (ValidDwpResponse Body))) :
    Option (Except (AError E) (ValidDwpResponse Body)) :=
  get_first_ok_bounded domain_with_paths_list 0
    (fun dwps => dwps.get_first_valid_dwp probe (inner dwps)) outer

/-- `get_valid_dwp` (src/main.rs lines 117-134): try the unix-time tier,
then the seconds-of-minute tier, and surface "no domains supplied" only
when the second race received zero items. -/
def get_valid_dwp {E Body : Type} (domains : List (List Char)) (seconds : Int)
    (video_data : VideoData) (probe : DomainWithPath → Except E Body)
    (inner1 : DomainWithPaths → List (Except (AError E) (ValidDwpResponse Body)))
    (outer1 : List (Except (AError E) (ValidDwpResponse Body)))
    (inner2 : DomainWithPaths → List (Except (AError E) (ValidDwpResponse Body)))
    (outer2 : List (Except (AError E) (ValidDwpResponse Body))) :
    Except (AError E) (ValidDwpResponse Body) :=
  let l1 := video_data.get_domain_with_paths_list domains seconds true
  match get_first_valid_dwp l1 probe inner1 outer1 with
  | some (.ok dwp_and_body) => .ok dwp_and_body
  | _ =>
    let l2 := video_data.get_domain_with_paths_list domains seconds false
    match get_first_valid_dwp l2 probe inner2 outer2 with
    | some dwp_and_body => dwp_and_body
    | none => .error .noDomainsSupplied

/-! ### Playlist rewriting and segment validation,
src/parse/mod.rs lines 307-413 and src/main.rs lines 149-168 -/

/-- A media playlist segment (`m3u8_rs::MediaSegment`); only the URI
matters to the claims. -/
structure MediaSegment where
  uri : List Char
deriving DecidableEq, Repr

/-- First index at which `pat` occurs in a string (`str::find`). -/
def findSubstr (pat : List Char) : List Char → Option Nat
  | [] => if pat.isPrefixOf ([] : List Char) then some 0 else none
  | c :: rest =>
    if pat.isPrefixOf (c :: rest) then some 0
    else (findSubstr pat rest).map (· + 1)

/-- `mute_uri` (src/parse/mod.rs lines 307-311): replace everything from
the first occurrence of "-unmuted" to the end by "-muted.ts". -/
def mute_uri (segment_uri : List Char) : List Char :=
  match findSubstr ("-unmuted".toList) segment_uri with
  | some start => segment_uri.take start ++ "-muted.ts".toList
  | none => segment_uri

/-- `mute_media_segments` (src/parse/mod.rs lines 313-317). -/
def mute_media_segments (segments : List MediaSegment) : List MediaSegment :=
  segments.map (fun s => ⟨mute_uri s.uri⟩)

/-- The validity outcomes as delivered over the result channel of
`get_valid_indices`, in input order: `some i` when segment `i`'s check
succeeded, `none` when it failed (src/parse/mod.rs lines 364-377). -/
def canonicalResponses (urls : List (List Char)) (url_is_valid : List Char → Bool) :
    List (Option Nat) :=
  urls.enum.map (fun p => if url_is_valid p.2 then some p.1 else none)

/-- The collector loop of `get_valid_indices` (src/parse/mod.rs lines
389-404): start from an all-false table and set the delivered indices,
`responses` being the outcomes in completion order. -/
def get_valid_indices (length : Nat) (responses : List (Option Nat)) : List Bool :=
  responses.foldl
    (fun result response =>
      match response with
      | some index => result.set index true
      | none => result)
    (List.replicate length false)

/-- `get_valid_segments` (src/parse/mod.rs lines 336-351): keep the
segments whose validity-table entry is true, in order. -/
def get_valid_segments (segments : List MediaSegment) (responses : List (Option Nat)) :
    List MediaSegment :=
  let index_is_valid := get_valid_indices segments.length responses
  segments.enum.filterMap
    (fun p => if index_is_valid.getD p.1 false then some p.2 else none)

/-- The filtering stage of `main_helper` (src/main.rs lines 149-168): with
`--filter-invalid c` for `c > 0`, filter and abort with
"0 valid segments found" when nothing survives; the returned segments are
the ones subsequently written to disk. -/
def main_helper_filter_stage (segments : List MediaSegment) (filter_invalid : Option Nat)
    (responses : List (Option Nat)) : Except String (List MediaSegment) :=
  match filter_invalid with
  | some check_invalid_concurrent =>
    if check_invalid_concurrent > 0 then
      let filtered := get_valid_segments segments responses
      if filtered.length = 0 then .error "0 valid segments found"
      else .ok filtered
    else .ok segments
  | none => .ok segments

/-! ### Definitions written from the spec's words (for the refinement
claim C6) -/

/-- Modelled from the spec (section 6, candidate path generation): the
path is the first 20 hex characters of the 160-bit digest of
`"{S}_{V}_{T}"`, an underscore, then the base string. -/
def spec_candidate_path (S V T : List Char) : List Char :=
  let base := S ++ '_' :: V ++ '_' :: T
  (hexEncode (sha1 (strBytes base))).take 20 ++ '_' :: base

/-- Modelled from the spec (section 6): the full candidate URL is
`"{domain}{path}/chunked/index-dvr.m3u8"`. -/
def spec_candidate_url (domain path : List Char) : List Char :=
  domain ++ path ++ "/chunked/index-dvr.m3u8".toList

/-! ### Aggregator lemmas -/

theorem processLoop_nil {T E : Type} (fuel : Nat) (acc : Option (Except E T)) :
    processLoop fuel ([] : List (Except E T)) acc = acc := by
  cases fuel <;> rfl

/-- Any result the aggregator returns is either the initial accumulator or
one of the received outcomes. -/
theorem processLoop_mem {T E : Type} (fuel : Nat) (stream : List (Except E T))
    (acc : Option (Except E T)) :
    processLoop fuel stream acc = acc ∨ ∃ r ∈ stream, processLoop fuel stream acc = some r := by
  induction fuel generalizing stream acc with
  | zero => exact Or.inl rfl
  | succ n ih =>
    cases stream with
    | nil => exact Or.inl rfl
    | cons r rest =>
      cases r with
      | ok v => exact Or.inr ⟨.ok v, List.mem_cons_self _ _, rfl⟩
      | error e =>
        rcases ih rest (some (.error e)) with h | ⟨r', hr', h⟩
        · exact Or.inr ⟨.error e, List.mem_cons_self _ _, h⟩
        · exact Or.inr ⟨r', List.mem_cons_of_mem _ hr', h⟩

/-- If the stream holds a success within the fuel bound, the aggregator
returns a success. -/
theorem processLoop_ok {T E : Type} (fuel : Nat) (stream : List (Except E T))
    (acc : Option (Except E T)) (hlen : stream.length ≤ fuel)
    (hok : ∃ t, Except.ok t ∈ stream) :
    ∃ t, processLoop fuel stream acc = some (.ok t) := by
  induction fuel generalizing stream acc with
  | zero =>
    rcases hok with ⟨t, ht⟩
    rcases stream with _ | ⟨r, rest⟩
    · cases ht
    · simp at hlen
  | succ n ih =>
    rcases hok with ⟨t, ht⟩
    cases stream with
    | nil => cases ht
    | cons r rest =>
      cases r with
      | ok v => exact ⟨v, rfl⟩
      | error e =>
        have hmem : Except.ok t ∈ rest := by
          rcases List.mem_cons.mp ht with h | h
          · cases h
          · exact h
        have hlen' : rest.length ≤ n := Nat.le_of_succ_le_succ (by simpa using hlen)
        exact ih rest (some (.error e)) hlen' ⟨t, hmem⟩

/-- If every received outcome is an error and the whole stream fits in the
fuel bound, the aggregator returns the last received error. -/
theorem processLoop_all_error {T E : Type} (stream : List (Except E T))
    (acc : Option (Except E T)) (hne : stream ≠ [])
    (hfail : ∀ r ∈ stream, ∃ e, r = Except.error e) :
    processLoop stream.length stream acc = some (stream.getLast hne) := by
  induction stream generalizing acc with
  | nil => exact absurd rfl hne
  | cons r rest ih =>
    rcases hfail r (List.mem_cons_self _ _) with ⟨e, he⟩
    subst he
    cases rest with
    | nil => simp [processLoop, List.getLast]
    | cons r' rest' =>
      have hne' : r' :: rest' ≠ [] := by simp
      have := ih (some (.error e)) hne'
        (fun r hr => hfail r (List.mem_cons_of_mem _ hr))
      simpa [processLoop, List.getLast_cons] using this

/-- A nonempty stream within the fuel bound always yields some result. -/
theorem processLoop_isSome {T E : Type} (fuel : Nat) (stream : List (Except E T))
    (hfuel : 1 ≤ fuel) (hne : stream ≠ []) :
    ∃ r ∈ stream, processLoop fuel stream none = some r := by
  cases fuel with
  | zero => exact absurd hfuel (by simp)
  | succ n =>
    cases stream with
    | nil => exact absurd rfl hne
    | cons r rest =>
      cases r with
      | ok v => exact ⟨.ok v, List.mem_cons_self _ _, rfl⟩
      | error e =>
        rcases processLoop_mem n rest (some (.error e)) with h | ⟨r', hr', h⟩
        · exact ⟨.error e, List.mem_cons_self _ _, by simpa [processLoop] using h⟩
        · exact ⟨r', List.mem_cons_of_mem _ hr', by simpa [processLoop] using h⟩

/-- A per-domain probe can fail with "no urls" or a network error, but
never with the top level's "no domains supplied". -/
theorem domain_first_valid_ne_noDomains {E Body : Type} (dwps : DomainWithPaths)
    (probe : DomainWithPath → Except E Body)
    (stream : List (Except (AError E) (ValidDwpResponse Body)))
    (hstream : stream.Perm
      (dwps.to_list_of_domain_with_path.dropLast.map (innerChecker probe))) :
    dwps.get_first_valid_dwp probe stream ≠ .error .noDomainsSupplied := by
  unfold DomainWithPaths.get_first_valid_dwp
  cases hlast : dwps.to_list_of_domain_with_path.getLast? with
  | none => simp
  | some last =>
    cases hp : probe last with
    | ok body => simp [DomainWithPath.get_m3u8_body, hp]
    | error e =>
      simp only [DomainWithPath.get_m3u8_body, hp]
      cases hrace : get_first_ok_bounded dwps.to_list_of_domain_with_path.dropLast 0
          (innerChecker probe) stream with
      | none => simp
      | some r =>
        simp only
        rcases processLoop_mem dwps.to_list_of_domain_with_path.dropLast.length stream none
          with hmem | ⟨r', hr', hmem⟩
        · rw [get_first_ok_bounded, process_item_responses] at hrace
          rw [hrace] at hmem
          cases hmem
        · rw [get_first_ok_bounded, process_item_responses] at hrace
          rw [hrace] at hmem
          cases hmem
          have hr'' := hstream.mem_iff.mp hr'
          obtain ⟨item, _, rfl⟩ := List.mem_map.mp hr''
          cases hpi : probe item with
          | ok b => simp [innerChecker, DomainWithPath.get_m3u8_body, hpi]
          | error e' => simp [innerChecker, DomainWithPath.get_m3u8_body, hpi]

/-! ### Segment validation lemmas -/

theorem get_valid_indices_length (n : Nat) (responses : List (Option Nat)) :
    (get_valid_indices n responses).length = n := by
  suffices h : ∀ (rs : List (Option Nat)) (tbl : List Bool),
      (rs.foldl (fun result response =>
        match response with
        | some index => result.set index true
        | none => result) tbl).length = tbl.length by
    simpa [get_valid_indices] using h responses (List.replicate n false)
  intro rs
  induction rs with
  | nil => intro tbl; rfl
  | cons r rest ih =>
    intro tbl
    cases r with
    | some i => simpa using ih (tbl.set i true)
    | none => exact ih tbl

theorem get_valid_indices_all_none (n : Nat) (responses : List (Option Nat))
    (h : ∀ r ∈ responses, r = none) :
    get_valid_indices n responses = List.replicate n false := by
  unfold get_valid_indices
  induction responses with
  | nil => rfl
  | cons r rest ih =>
    have hr := h r (List.mem_cons_self _ _)
    subst hr
    exact ih (fun r hr => h r (List.mem_cons_of_mem _ hr))

theorem filterMap_enumFrom_eq_zip_filter {α : Type} (ss : List α) :
    ∀ (k : Nat) (tbl : List Bool),
      (ss.enumFrom k).filterMap
          (fun p => if tbl.getD p.1 false then some p.2 else none)
        = ((ss.zip (tbl.drop k)).filter (fun p => p.2)).map (fun p => p.1) := by
  induction ss with
  | nil => intro k tbl; rfl
  | cons s ss ih =>
    intro k tbl
    rw [List.enumFrom_cons, List.filterMap_cons]
    cases hdrop : tbl.drop k with
    | nil =>
      have hk : tbl.length ≤ k := List.drop_eq_nil_iff.mp hdrop
      have hget : tbl.getD k false = false := by
        simp [List.getD_eq_getElem?_getD, List.getElem?_eq_none hk]
      have hdrop' : tbl.drop (k + 1) = [] :=
        List.drop_eq_nil_iff.mpr (Nat.le_succ_of_le hk)
      rw [hget]
      simpa [hdrop'] using ih (k + 1) tbl
    | cons b rest =>
      have hk : k < tbl.length := by
        by_contra hk
        rw [List.drop_eq_nil_iff.mpr (Nat.le_of_not_lt hk)] at hdrop
        cases hdrop
      have hcons := @List.drop_eq_getElem_cons _ _ tbl hk
      rw [hdrop] at hcons
      have hb : b = tbl[k] := by
        cases hcons
        rfl
      have hrest : rest = tbl.drop (k + 1) := by
        cases hcons
        rfl
      have hget : tbl.getD k false = b := by
        rw [List.getD_eq_getElem?_getD, List.getElem?_eq_getElem hk]
        simp [hb]
      rw [hget]
      cases b with
      | true => simpa [← hrest] using congrArg (List.cons s) (ih (k + 1) tbl)
      | false => simpa [← hrest] using ih (k + 1) tbl

theorem get_valid_segments_eq_zip_filter (segments : List MediaSegment)
    (responses : List (Option Nat)) :
    get_valid_segments segments responses
      = ((segments.zip (get_valid_indices segments.length responses)).filter
          (fun p => p.2)).map (fun p => p.1) := by
  unfold get_valid_segments
  have := filterMap_enumFrom_eq_zip_filter segments 0
    (get_valid_indices segments.length responses)
  simpa [List.enum] using this

/-! ### mute_uri lemmas -/

theorem findSubstr_eq_none_iff (pat : List Char) :
    ∀ s : List Char, findSubstr pat s = none ↔ ¬ pat <:+: s
  | [] => by
    rw [findSubstr]
    split
    · next h =>
      rw [ List.isPrefixOf_iff_prefix] at h
      simp [h.isInfix]
    · next h =>
      rw [ List.isPrefixOf_iff_prefix] at h
      simp only [List.prefix_nil] at h
      simp [h]
  | c :: rest => by
    rw [findSubstr]
    split
    · next h =>
      rw [ List.isPrefixOf_iff_prefix] at h
      simp [List.infix_cons_iff, h]
    · next h =>
      rw [ List.isPrefixOf_iff_prefix] at h
      rw [Option.map_eq_none', findSubstr_eq_none_iff pat rest, List.infix_cons_iff]
      simp [h]

theorem findSubstr_some (pat : List Char) :
    ∀ (s : List Char) (i : Nat), findSubstr pat s = some i →
      pat <+: s.drop i ∧ ∀ j, j < i → ¬ pat <+: s.drop j
  | [], i => by
    rw [findSubstr]
    split
    · next h =>
      intro hi
      cases hi
      rw [ List.isPrefixOf_iff_prefix] at h
      exact ⟨h, fun j hj => absurd hj (Nat.not_lt_zero j)⟩
    · intro hi
      cases hi
  | c :: rest, i => by
    rw [findSubstr]
    split
    · next h =>
      intro hi
      cases hi
      rw [ List.isPrefixOf_iff_prefix] at h
      exact ⟨h, fun j hj => absurd hj (Nat.not_lt_zero j)⟩
    · next h =>
      rw [ List.isPrefixOf_iff_prefix] at h
      intro hi
      rw [Option.map_eq_some'] at hi
      obtain ⟨i', hi', rfl⟩ := hi
      obtain ⟨hocc, hmin⟩ := findSubstr_some pat rest i' hi'
      refine ⟨by simpa using hocc, ?_⟩
      intro j hj
      cases j with
      | zero => simpa using h
      | succ j' => simpa using hmin j' (by omega)

theorem canonicalResponses_all_none (urls : List (List Char))
    (url_is_valid : List Char → Bool) (hfail : ∀ u ∈ urls, url_is_valid u = false) :
    ∀ r ∈ canonicalResponses urls url_is_valid, r = none := by
  intro r hr
  obtain ⟨p, hp, rfl⟩ := List.mem_map.mp hr
  have hmem : p.2 ∈ urls := by
    have := List.mem_enum_iff_getElem?.mp hp
    exact List.getElem?_mem this
  simp [hfail p.2 hmem]

/-! ### Decimal roundtrip lemmas -/

theorem natToCharsCore_append (fuel : Nat) :
    ∀ (n : Nat) (acc : List Char),
      natToCharsCore fuel n acc = natToCharsCore fuel n [] ++ acc := by
  induction fuel with
  | zero => intro n acc; rfl
  | succ fuel ih =>
    intro n acc
    rw [natToCharsCore, natToCharsCore]
    by_cases h : n < 10
    · simp [h]
    · rw [if_neg h, if_neg h, ih (n / 10) (digitChar (n % 10) :: acc),
        ih (n / 10) [digitChar (n % 10)], List.append_assoc]
      rfl

theorem parseNatAux_append (xs : List Char) :
    ∀ (ys : List Char) (a : Nat),
      parseNatAux (xs ++ ys) a
        = match parseNatAux xs a with
          | some m => parseNatAux ys m
          | none => none := by
  induction xs with
  | nil => intro ys a; rfl
  | cons c rest ih =>
    intro ys a
    rw [List.cons_append, parseNatAux, parseNatAux]
    cases digitVal? c with
    | some d => exact ih ys (a * 10 + d)
    | none => rfl

theorem digitVal?_digitChar (d : Nat) (h : d < 10) : digitVal? (digitChar d) = some d := by
  interval_cases d <;> decide

theorem digitChar_ne_special (d : Nat) (h : d < 10) :
    digitChar d ≠ '_' ∧ digitChar d ≠ '-' ∧ digitChar d ≠ '+' := by
  interval_cases d <;> decide

theorem parseNatAux_natToCharsCore (fuel : Nat) :
    ∀ (n a : Nat), n < 10 ^ fuel →
      parseNatAux (natToCharsCore fuel n []) a
        = some (a * 10 ^ (natToCharsCore fuel n []).length + n) := by
  induction fuel with
  | zero =>
    intro n a h
    interval_cases n
    simp [natToCharsCore, parseNatAux]
  | succ fuel ih =>
    intro n a h
    by_cases hn : n < 10
    · rw [natToCharsCore, if_pos hn]
      simp [parseNatAux, digitVal?_digitChar n hn]
    · rw [natToCharsCore, if_neg hn, natToCharsCore_append]
      have hdiv : n / 10 < 10 ^ fuel := by
        rw [pow_succ] at h
        omega
      rw [parseNatAux_append, ih (n / 10) a hdiv]
      simp only [parseNatAux, digitVal?_digitChar (n % 10) (Nat.mod_lt n (by omega))]
      rw [List.length_append, List.length_cons, List.length_nil]
      congr 1
      have : (a * 10 ^ (natToCharsCore fuel (n / 10) []).length + n / 10) * 10 + n % 10
          = a * (10 ^ (natToCharsCore fuel (n / 10) []).length * 10)
            + (n / 10 * 10 + n % 10) := by ring
      have heq2 : n / 10 * 10 + n % 10 = n := by omega
      rw [this, heq2, Nat.zero_add, ← pow_succ]

theorem parseNatAux_natToChars (n : Nat) : parseNatAux (natToChars n) 0 = some n := by
  have h : n < 10 ^ (n + 1) := by
    calc n < 10 ^ n := Nat.lt_pow_self (by omega) n
    _ ≤ 10 ^ (n + 1) := Nat.pow_le_pow_right (by omega) (Nat.le_succ n)
  simpa using parseNatAux_natToCharsCore (n + 1) n 0 h

theorem natToChars_ne_nil (n : Nat) : natToChars n ≠ [] := by
  rw [natToChars, natToCharsCore]
  by_cases h : n < 10
  · simp [h]
  · rw [if_neg h, natToCharsCore_append]
    simp

theorem mem_natToCharsCore (fuel : Nat) :
    ∀ (n : Nat) (acc : List Char) (c : Char), c ∈ natToCharsCore fuel n acc →
      c ∈ acc ∨ ∃ d, d < 10 ∧ c = digitChar d := by
  induction fuel with
  | zero => intro n acc c h; exact Or.inl h
  | succ fuel ih =>
    intro n acc c h
    rw [natToCharsCore] at h
    by_cases hn : n < 10
    · rw [if_pos hn] at h
      rcases List.mem_cons.mp h with h | h
      · exact Or.inr ⟨n, hn, h⟩
      · exact Or.inl h
    · rw [if_neg hn] at h
      rcases ih (n / 10) (digitChar (n % 10) :: acc) c h with h | h
      · rcases List.mem_cons.mp h with h | h
        · exact Or.inr ⟨n % 10, Nat.mod_lt n (by omega), h⟩
        · exact Or.inl h
      · exact Or.inr h

theorem mem_natToChars (n : Nat) (c : Char) (h : c ∈ natToChars n) :
    ∃ d, d < 10 ∧ c = digitChar d := by
  rcases mem_natToCharsCore (n + 1) n [] c h with h | h
  · cases h
  · exact h

theorem intToChars_no_underscore (t : Int) : '_' ∉ intToChars t := by
  rw [intToChars]
  by_cases ht : t < 0
  · rw [if_pos ht]
    intro hmem
    rcases List.mem_cons.mp hmem with h | h
    · cases h
    · obtain ⟨d, hd, hc⟩ := mem_natToChars (-t).toNat '_' h
      exact (digitChar_ne_special d hd).1 hc.symm
  · rw [if_neg ht]
    intro hmem
    obtain ⟨d, hd, hc⟩ := mem_natToChars t.toNat '_' hmem
    exact (digitChar_ne_special d hd).1 hc.symm

theorem parseInt64_intToChars (t : Int)
    (hlo : -9223372036854775808 ≤ t) (hhi : t ≤ 9223372036854775807) :
    parseInt64 (intToChars t) = some t := by
  rw [intToChars]
  by_cases ht : t < 0
  · rw [if_pos ht]
    obtain ⟨c, rest, hcons⟩ := List.exists_cons_of_ne_nil (natToChars_ne_nil (-t).toNat)
    have hparse : parseNatAux (c :: rest) 0 = some (-t).toNat := by
      rw [← hcons]; exact parseNatAux_natToChars (-t).toNat
    rw [hcons]
    simp only [parseInt64, hparse, if_pos]
    have hbound : ((-t).toNat : Int) ≤ 9223372036854775808 := by
      rw [Int.toNat_of_nonneg (by omega)]
      omega
    rw [if_pos hbound]
    congr 1
    rw [Int.toNat_of_nonneg (by omega)]
    omega
  · rw [if_neg ht]
    obtain ⟨c, rest, hcons⟩ := List.exists_cons_of_ne_nil (natToChars_ne_nil t.toNat)
    have hc : ∃ d, d < 10 ∧ c = digitChar d := by
      apply mem_natToChars t.toNat
      rw [hcons]
      exact List.mem_cons_self _ _
    obtain ⟨d, hd, rfl⟩ := hc
    rw [hcons]
    simp only [parseInt64]
    rw [if_neg (digitChar_ne_special d hd).2.1, if_neg (digitChar_ne_special d hd).2.2]
    have hparse : parseNatAux (digitChar d :: rest) 0 = some t.toNat := by
      rw [← hcons]; exact parseNatAux_natToChars t.toNat
    simp only [hparse]
    have hbound : (t.toNat : Int) ≤ 9223372036854775807 := by
      rw [Int.toNat_of_nonneg (by omega)]
      omega
    rw [if_pos hbound]
    congr 1
    exact Int.toNat_of_nonneg (by omega)

/-! ### Underscore-free character classes -/

theorem be32_lt (x : Nat) : ∀ b ∈ be32 x, b < 256 := by
  intro b hb
  simp only [be32, List.mem_cons, List.not_mem_nil, or_false] at hb
  rcases hb with h | h | h | h <;> subst h <;> exact Nat.mod_lt _ (by omega)

theorem sha1_byte_lt (msg : List Nat) : ∀ b ∈ sha1 msg, b < 256 := by
  have key : ∀ (st : Nat × Nat × Nat × Nat × Nat) (b : Nat),
      b ∈ (match st with
        | (h0, h1, h2, h3, h4) =>
          be32 h0 ++ be32 h1 ++ be32 h2 ++ be32 h3 ++ be32 h4) → b < 256 := by
    rintro ⟨h0, h1, h2, h3, h4⟩ b hb
    simp only [List.mem_append] at hb
    rcases hb with ((((h | h) | h) | h) | h) <;> exact be32_lt _ b h
  intro b hb
  simp only [sha1] at hb
  exact key _ b hb

theorem hexDigitChar_ne_underscore (d : Nat) (h : d < 16) : hexDigitChar d ≠ '_' := by
  interval_cases d <;> decide

theorem hexEncode_no_underscore (bs : List Nat) (hbs : ∀ b ∈ bs, b < 256) :
    '_' ∉ hexEncode bs := by
  intro hmem
  rw [hexEncode, List.mem_flatten] at hmem
  obtain ⟨l, hl, hmeml⟩ := hmem
  obtain ⟨bb, hbb, rfl⟩ := List.mem_map.mp hl
  have hb := hbs bb hbb
  rcases List.mem_cons.mp hmeml with h | h
  · exact hexDigitChar_ne_underscore (bb / 16) (by omega) h.symm
  · rcases List.mem_cons.mp h with h | h
    · exact hexDigitChar_ne_underscore (bb % 16) (by omega) h.symm
    · cases h

theorem hash_no_underscore (msg : List Nat) :
    '_' ∉ (hexEncode (sha1 msg)).take 20 := fun h =>
  hexEncode_no_underscore (sha1 msg) (sha1_byte_lt msg) (List.take_subset _ _ h)

/-! ### Underscore index lemmas -/

theorem underscoreIndicesFrom_append (xs : List Char) :
    ∀ (ys : List Char) (i : Nat),
      underscoreIndicesFrom i (xs ++ ys)
        = underscoreIndicesFrom i xs ++ underscoreIndicesFrom (i + xs.length) ys := by
  induction xs with
  | nil => intro ys i; simp [underscoreIndicesFrom]
  | cons c rest ih =>
    intro ys i
    rw [List.cons_append, underscoreIndicesFrom, underscoreIndicesFrom]
    have hshift : i + 1 + rest.length = i + (c :: rest).length := by
      simp only [List.length_cons]
      omega
    by_cases hc : c = '_'
    · rw [if_pos hc, if_pos hc, ih ys (i + 1), hshift, List.cons_append]
    · rw [if_neg hc, if_neg hc, ih ys (i + 1), hshift]

theorem underscoreIndicesFrom_eq_nil (xs : List Char) (hx : '_' ∉ xs) :
    ∀ i : Nat, underscoreIndicesFrom i xs = [] := by
  induction xs with
  | nil => intro i; rfl
  | cons c rest ih =>
    intro i
    rw [underscoreIndicesFrom,
      if_neg (fun h => hx (by rw [h]; exact List.mem_cons_self _ _))]
    exact ih (fun h => hx (List.mem_cons_of_mem _ h)) (i + 1)

/-- The central decomposition: on a path of the shape
`A_B_C_D` with no underscore in `A`, `C`, `D` (`B` may contain
underscores), parsing recovers `B`, `C` and the integer rendered in
`D`. -/
theorem url_path_to_video_data_decompose (A B C D : List Char)
    (hA : '_' ∉ A) (hC : '_' ∉ C) (hD : '_' ∉ D) :
    url_path_to_video_data (A ++ '_' :: (B ++ '_' :: (C ++ '_' :: D)))
      = match parseInt64 D with
        | none => .error "invalid digit found in string"
        | some unix_time_int =>
          match from_timestamp_opt unix_time_int with
          | none => .error "unix time out of range"
          | some time => .ok ⟨B, C, time⟩ := by
  have hidx : underscoreIndices (A ++ '_' :: (B ++ '_' :: (C ++ '_' :: D)))
      = A.length :: (underscoreIndicesFrom (A.length + 1) B
          ++ (A.length + 1 + B.length) :: [A.length + 1 + B.length + 1 + C.length]) := by
    rw [underscoreIndices, underscoreIndicesFrom_append,
      underscoreIndicesFrom_eq_nil A hA, Nat.zero_add, List.nil_append,
      underscoreIndicesFrom, if_pos rfl, underscoreIndicesFrom_append,
      underscoreIndicesFrom, if_pos rfl, underscoreIndicesFrom_append,
      underscoreIndicesFrom_eq_nil C hC, List.nil_append,
      underscoreIndicesFrom, if_pos rfl, underscoreIndicesFrom_eq_nil D hD]
  simp only [url_path_to_video_data, hidx]
  have hlen : (A.length :: (underscoreIndicesFrom (A.length + 1) B
      ++ (A.length + 1 + B.length) :: [A.length + 1 + B.length + 1 + C.length])).length
      = (underscoreIndicesFrom (A.length + 1) B).length + 3 := by
    simp
  rw [hlen, if_neg (by omega)]
  have h32 : (underscoreIndicesFrom (A.length + 1) B).length + 3 - 2
      = (underscoreIndicesFrom (A.length + 1) B).length + 1 := by omega
  have h31 : (underscoreIndicesFrom (A.length + 1) B).length + 3 - 1
      = (underscoreIndicesFrom (A.length + 1) B).length + 2 := by omega
  rw [h32, h31]
  simp only [List.getD_cons_zero, List.getD_cons_succ]
  have hgx : (underscoreIndicesFrom (A.length + 1) B
      ++ (A.length + 1 + B.length) :: [A.length + 1 + B.length + 1 + C.length]).getD
        (underscoreIndicesFrom (A.length + 1) B).length 0 = A.length + 1 + B.length := by
    rw [List.getD_eq_getElem?_getD, List.getElem?_append_right (Nat.le_refl _)]
    simp
  have hgy : (underscoreIndicesFrom (A.length + 1) B
      ++ (A.length + 1 + B.length) :: [A.length + 1 + B.length + 1 + C.length]).getD
        ((underscoreIndicesFrom (A.length + 1) B).length + 1) 0
      = A.length + 1 + B.length + 1 + C.length := by
    rw [List.getD_eq_getElem?_getD,
      List.getElem?_append_right (Nat.le_succ_of_le (Nat.le_refl _))]
    simp
  rw [hgx, hgy]
  have hdrop1 : (A ++ '_' :: (B ++ '_' :: (C ++ '_' :: D))).drop (A.length + 1)
      = B ++ '_' :: (C ++ '_' :: D) := by
    rw [show A ++ '_' :: (B ++ '_' :: (C ++ '_' :: D))
        = (A ++ ['_']) ++ (B ++ '_' :: (C ++ '_' :: D)) from by simp]
    exact List.drop_left' (by simp)
  have hsub1 : A.length + 1 + B.length - (A.length + 1) = B.length := by omega
  have htake1 : (B ++ '_' :: (C ++ '_' :: D)).take B.length = B := List.take_left' rfl
  have hdrop2 : (A ++ '_' :: (B ++ '_' :: (C ++ '_' :: D))).drop (A.length + 1 + B.length + 1)
      = C ++ '_' :: D := by
    rw [show A ++ '_' :: (B ++ '_' :: (C ++ '_' :: D))
        = ((A ++ ['_']) ++ (B ++ ['_'])) ++ (C ++ '_' :: D) from by simp]
    exact List.drop_left' (by
      simp only [List.length_append, List.length_cons, List.length_nil]
      omega)
  have hsub2 : A.length + 1 + B.length + 1 + C.length - (A.length + 1 + B.length + 1)
      = C.length := by omega
  have htake2 : (C ++ '_' :: D).take C.length = C := List.take_left' rfl
  have hdrop3 : (A ++ '_' :: (B ++ '_' :: (C ++ '_' :: D))).drop
      (A.length + 1 + B.length + 1 + C.length + 1) = D := by
    rw [show A ++ '_' :: (B ++ '_' :: (C ++ '_' :: D))
        = (((A ++ ['_']) ++ (B ++ ['_'])) ++ (C ++ ['_'])) ++ D from by simp]
    exact List.drop_left' (by
      simp only [List.length_append, List.length_cons, List.length_nil]
      omega)
  rw [hdrop1, hsub1, htake1, hdrop2, hsub2, htake2, hdrop3]

/-! ### Claim theorems -/

/-- C1: for every item sequence containing at least one item on which the
checker succeeds, `get_first_ok_bounded` returns `some (Except.ok _)` for
every feasible completion order, no matter how many other items fail. -/
theorem race_with_success_returns_ok {I T E : Type} (items : List I) (concurrent : Nat)
    (checker : I → Except E T) (stream : List (Except E T))
    (hstream : stream.Perm (items.map checker))
    (hok : ∃ i ∈ items, ∃ t, checker i = .ok t) :
    ∃ t, get_first_ok_bounded items concurrent checker stream = some (.ok t) := by
  obtain ⟨i, hi, t, ht⟩ := hok
  have hmem : Except.ok t ∈ stream := by
    apply hstream.mem_iff.mpr
    rw [← ht]
    exact List.mem_map_of_mem checker hi
  have hlen : stream.length ≤ items.length := by
    rw [hstream.length_eq, List.length_map]
  simpa [get_first_ok_bounded, process_item_responses] using
    processLoop_ok items.length stream none hlen ⟨t, hmem⟩

theorem race_with_success_returns_ok_witness :
    ∃ t, get_first_ok_bounded [1, 2, 3] 2
      (fun n => if n = 2 then Except.ok n else Except.error (10 * n))
      [Except.error 30, Except.ok 2, Except.error 10] = some (Except.ok t) :=
  race_with_success_returns_ok [1, 2, 3] 2 _ _
    (by simpa using List.reverse_perm ([1, 2, 3].map (fun n => if n = 2 then Except.ok n else Except.error (10 * n))))
    ⟨2, by decide, 2, rfl⟩

/-- C2: with concurrency 1 the completion stream is the input-order
checker results; over a nonempty all-failing sequence the race returns
the failure of the last item in input order. -/
theorem race_concurrency_one_all_fail_returns_last_error {I T E : Type} (items : List I)
    (checker : I → Except E T) (hne : items ≠ [])
    (hfail : ∀ i ∈ items, ∃ e, checker i = .error e) :
    ∃ e, checker (items.getLast hne) = .error e ∧
      get_first_ok_bounded items 1 checker (items.map checker) = some (.error e) := by
  have hne' : items.map checker ≠ [] := by
    simpa using hne
  have hall : ∀ r ∈ items.map checker, ∃ e, r = Except.error e := by
    intro r hr
    obtain ⟨i, hi, rfl⟩ := List.mem_map.mp hr
    exact hfail i hi
  obtain ⟨e, he⟩ := hfail (items.getLast hne) (List.getLast_mem hne)
  refine ⟨e, he, ?_⟩
  have hlast := processLoop_all_error (items.map checker) none hne' hall
  have hgl : (items.map checker).getLast hne' = checker (items.getLast hne) := by
    rw [List.getLast_eq_getElem, List.getLast_eq_getElem, List.getElem_map]
    simp
  rw [get_first_ok_bounded, process_item_responses]
  rw [← List.length_map items checker, hlast, hgl, he]

theorem race_concurrency_one_all_fail_returns_last_error_witness :
    ∃ e, (fun n => (Except.error (10 * n) : Except Nat Nat)) 3 = Except.error e ∧
      get_first_ok_bounded [1, 2, 3] 1 (fun n => (Except.error (10 * n) : Except Nat Nat))
        ([1, 2, 3].map (fun n => (Except.error (10 * n) : Except Nat Nat)))
        = some (Except.error e) := by
  have h := race_concurrency_one_all_fail_returns_last_error [1, 2, 3]
    (fun n => (Except.error (10 * n) : Except Nat Nat)) (by decide)
    (fun i _ => ⟨10 * i, rfl⟩)
  simpa using h

/-- C3: a race over an empty item sequence returns `none` for any checker
and concurrency, and the top-level `get_valid_dwp` surfaces the
"no domains supplied" error exactly when the domain list is empty. -/
theorem empty_race_none_and_no_domains_iff :
    (∀ (I T E : Type) (concurrent : Nat) (checker : I → Except E T)
        (stream : List (Except E T)),
      get_first_ok_bounded ([] : List I) concurrent checker stream = none)
    ∧ ∀ (E Body : Type) (domains : List (List Char)) (seconds : Int) (vd : VideoData)
        (probe : DomainWithPath → Except E Body)
        (inner1 : DomainWithPaths → List (Except (AError E) (ValidDwpResponse Body)))
        (outer1 : List (Except (AError E) (ValidDwpResponse Body)))
        (inner2 : DomainWithPaths → List (Except (AError E) (ValidDwpResponse Body)))
        (outer2 : List (Except (AError E) (ValidDwpResponse Body))),
        outer2.Perm ((vd.get_domain_with_paths_list domains seconds false).map
          (fun dwps => dwps.get_first_valid_dwp probe (inner2 dwps))) →
        (∀ dwps ∈ vd.get_domain_with_paths_list domains seconds false,
          (inner2 dwps).Perm
            (dwps.to_list_of_domain_with_path.dropLast.map (innerChecker probe))) →
        (get_valid_dwp domains seconds vd probe inner1 outer1 inner2 outer2
            = .error .noDomainsSupplied ↔ domains = []) := by
  constructor
  · intro I T E concurrent checker stream
    rfl
  · intro E Body domains seconds vd probe inner1 outer1 inner2 outer2 houter hinner
    constructor
    · intro heq
      by_contra hne
      have hl2 : vd.get_domain_with_paths_list domains seconds false ≠ [] := by
        simp [VideoData.get_domain_with_paths_list, hne]
      have houterne : outer2 ≠ [] := by
        intro h
        rw [h] at houter
        have := houter.symm.eq_nil
        simp only [List.map_eq_nil_iff] at this
        exact hl2 this
      have hfuel : 1 ≤ (vd.get_domain_with_paths_list domains seconds false).length :=
        Nat.one_le_iff_ne_zero.mpr (by simpa [List.length_eq_zero] using hl2)
      obtain ⟨r, hrmem, hr⟩ := processLoop_isSome
        (vd.get_domain_with_paths_list domains seconds false).length outer2 hfuel houterne
      have hrace2 : get_first_valid_dwp
          (vd.get_domain_with_paths_list domains seconds false) probe inner2 outer2
          = some r := hr
      have hrne : r ≠ .error .noDomainsSupplied := by
        have := houter.mem_iff.mp hrmem
        obtain ⟨dwps, hdwps, rfl⟩ := List.mem_map.mp this
        exact domain_first_valid_ne_noDomains dwps probe (inner2 dwps) (hinner dwps hdwps)
      apply hrne
      rw [← heq]
      unfold get_valid_dwp
      cases h1 : get_first_valid_dwp
          (vd.get_domain_with_paths_list domains seconds true) probe inner1 outer1 with
      | none => simp only [h1, hrace2]
      | some r1 =>
        cases r1 with
        | ok v =>
          exfalso
          unfold get_valid_dwp at heq
          simp only [h1] at heq
          cases heq
        | error e1 => simp only [h1, hrace2]
    · intro h
      subst h
      rfl

theorem empty_race_none_and_no_domains_iff_witness :
    @get_valid_dwp Unit Unit [] 1 (VideoData.mk [] [] 0)
        (fun _ => Except.error ()) (fun _ => []) [] (fun _ => []) []
        = .error .noDomainsSupplied ↔ ([] : List (List Char)) = [] :=
  empty_race_none_and_no_domains_iff.2 Unit Unit [] 1 (VideoData.mk [] [] 0)
    (fun _ => Except.error ()) (fun _ => []) [] (fun _ => []) []
    (by simp [VideoData.get_domain_with_paths_list]) (by simp [VideoData.get_domain_with_paths_list])

/-- C4: the per-domain probe requests the last path variant eagerly and
returns it on success without consulting the race; on failure it races
the remaining variants with concurrency 0 and returns that race's
result, falling back to the eager error when no variants remain. -/
theorem domain_probe_eager_then_race {E Body : Type} (dwps : DomainWithPaths)
    (probe : DomainWithPath → Except E Body) (last : DomainWithPath)
    (hlast : dwps.to_list_of_domain_with_path.getLast? = some last) :
    (∀ (body : Body) (stream : List (Except (AError E) (ValidDwpResponse Body))),
      probe last = .ok body →
      dwps.get_first_valid_dwp probe stream = .ok ⟨last, body⟩)
    ∧ (∀ (e : E) (stream : List (Except (AError E) (ValidDwpResponse Body))),
      probe last = .error e → dwps.paths.length = 1 →
      dwps.get_first_valid_dwp probe stream = .error (.net e))
    ∧ (∀ (e : E) (stream : List (Except (AError E) (ValidDwpResponse Body))),
      probe last = .error e → 1 < dwps.paths.length →
      stream.Perm (dwps.to_list_of_domain_with_path.dropLast.map (innerChecker probe)) →
      ∃ r, get_first_ok_bounded dwps.to_list_of_domain_with_path.dropLast 0
          (innerChecker probe) stream = some r
        ∧ dwps.get_first_valid_dwp probe stream = r) := by
  have hlistlen : dwps.to_list_of_domain_with_path.length = dwps.paths.length := by
    simp [DomainWithPaths.to_list_of_domain_with_path]
  refine ⟨?_, ?_, ?_⟩
  · intro body stream hp
    unfold DomainWithPaths.get_first_valid_dwp
    rw [hlast]
    simp [DomainWithPath.get_m3u8_body, hp]
  · intro e stream hp hlen
    unfold DomainWithPaths.get_first_valid_dwp
    rw [hlast]
    simp only [DomainWithPath.get_m3u8_body, hp]
    have hdrop : dwps.to_list_of_domain_with_path.dropLast.length = 0 := by
      rw [List.length_dropLast, hlistlen, hlen]
    rw [get_first_ok_bounded, process_item_responses, hdrop]
    rfl
  · intro e stream hp hlen hstream
    have hne : stream ≠ [] := by
      intro h
      rw [h] at hstream
      have := hstream.symm.eq_nil
      simp only [List.map_eq_nil_iff] at this
      have : dwps.to_list_of_domain_with_path.dropLast.length = 0 := by
        rw [this]; rfl
      rw [List.length_dropLast, hlistlen] at this
      omega
    have hfuel : 1 ≤ dwps.to_list_of_domain_with_path.dropLast.length := by
      rw [List.length_dropLast, hlistlen]
      omega
    obtain ⟨r, _, hr⟩ := processLoop_isSome
      dwps.to_list_of_domain_with_path.dropLast.length stream hfuel hne
    refine ⟨r, hr, ?_⟩
    unfold DomainWithPaths.get_first_valid_dwp
    rw [hlast]
    simp only [DomainWithPath.get_m3u8_body, hp]
    rw [get_first_ok_bounded, process_item_responses, hr]

theorem domain_probe_eager_then_race_witness :
    ∃ r, get_first_ok_bounded
        (DomainWithPaths.mk ("d".toList)
          [VideoPath.mk ("p1".toList) (VideoData.mk [] [] 0),
           VideoPath.mk ("p2".toList) (VideoData.mk [] [] 0)]).to_list_of_domain_with_path.dropLast
        0
        (innerChecker (fun dwp =>
          if dwp.path.url_path = "p1".toList then Except.ok 7 else Except.error (3 : Nat)))
        [Except.ok (ValidDwpResponse.mk
          (DomainWithPath.mk ("d".toList) (VideoPath.mk ("p1".toList) (VideoData.mk [] [] 0))) 7)]
        = some r
      ∧ (DomainWithPaths.mk ("d".toList)
          [VideoPath.mk ("p1".toList) (VideoData.mk [] [] 0),
           VideoPath.mk ("p2".toList) (VideoData.mk [] [] 0)]).get_first_valid_dwp
        (fun dwp =>
          if dwp.path.url_path = "p1".toList then Except.ok 7 else Except.error (3 : Nat))
        [Except.ok (ValidDwpResponse.mk
          (DomainWithPath.mk ("d".toList) (VideoPath.mk ("p1".toList) (VideoData.mk [] [] 0))) 7)]
        = r :=
  (domain_probe_eager_then_race
      (DomainWithPaths.mk ("d".toList)
        [VideoPath.mk ("p1".toList) (VideoData.mk [] [] 0),
         VideoPath.mk ("p2".toList) (VideoData.mk [] [] 0)])
      (fun dwp =>
        if dwp.path.url_path = "p1".toList then Except.ok 7 else Except.error (3 : Nat))
      (DomainWithPath.mk ("d".toList) (VideoPath.mk ("p2".toList) (VideoData.mk [] [] 0)))
      (by decide)).2.2 3 _ (by decide) (by decide) (by decide)

/-- C5: the retry wrapper returns a first success after exactly one
invocation; on any first error it returns the second invocation's
outcome unconditionally after exactly two invocations, and its result
never depends on invocations beyond the second. -/
theorem retry_on_error_spec {T E : Type} (doer : Nat → Except E T) :
    (∀ good, doer 0 = .ok good → retry_on_error doer = (.ok good, 1))
    ∧ (∀ e, doer 0 = .error e → retry_on_error doer = (doer 1, 2))
    ∧ (∀ doer' : Nat → Except E T, doer' 0 = doer 0 → doer' 1 = doer 1 →
        retry_on_error doer' = retry_on_error doer) := by
  refine ⟨?_, ?_, ?_⟩
  · intro good h
    simp [retry_on_error, h]
  · intro e h
    simp [retry_on_error, h]
  · intro doer' h0 h1
    cases h : doer 0 with
    | ok good => simp [retry_on_error, h, h0]
    | error e => simp [retry_on_error, h, h0, h1]

theorem retry_on_error_spec_witness :
    retry_on_error (fun n => if n = 0 then Except.error 9 else Except.ok (5 : Nat))
        = (Except.ok 5, 2)
    ∧ retry_on_error (fun _ => (Except.ok 7 : Except Nat Nat)) = (Except.ok 7, 1) := by
  constructor
  · exact ((retry_on_error_spec _).2.1 9 rfl).trans rfl
  · exact (retry_on_error_spec _).1 7 rfl

set_option maxRecDepth 100000 in
/-- C6: the generated path is the first 20 hex characters of the SHA-1
digest of `"{S}_{V}_{T}"` followed by an underscore and that base
string; on the reference input it equals the known path, and the full
candidate URL is `"{domain}{path}/chunked/index-dvr.m3u8"`. -/
theorem candidate_path_matches_spec :
    (∀ (vd : VideoData) (time_to_string : Int → List Char),
      vd.get_url_path_helper time_to_string
        = spec_candidate_path vd.streamer_name vd.video_id
            (time_to_string vd.unix_time_seconds))
    ∧ String.mk ((VideoData.mk "gmhikaru".toList "47198535725".toList 1664038929).get_url_path
        true) = "c5992ececce7bd7d350d_gmhikaru_47198535725_1664038929"
    ∧ ∀ dwp : DomainWithPath,
        dwp.get_index_dvr_url = spec_candidate_url dwp.domain dwp.path.url_path :=
  ⟨fun _ _ => rfl, by decide, fun _ => rfl⟩

/-- C8: the filtered playlist keeps exactly the segments whose
validity-table entry is true, in their original relative order; when
every check fails the table is all-false, the filtered playlist is
empty, and the caller aborts with "0 valid segments found" before
writing. -/
theorem segment_filter_spec :
    (∀ (segments : List MediaSegment) (responses : List (Option Nat)),
      get_valid_segments segments responses
        = ((segments.zip (get_valid_indices segments.length responses)).filter
            (fun p => p.2)).map (fun p => p.1)
      ∧ (get_valid_segments segments responses).Sublist segments)
    ∧ (∀ (segments : List MediaSegment) (url_is_valid : List Char → Bool)
        (responses : List (Option Nat)),
      responses.Perm (canonicalResponses (segments.map (fun s => s.uri)) url_is_valid) →
      (∀ u ∈ segments.map (fun s => s.uri), url_is_valid u = false) →
      get_valid_indices segments.length responses
          = List.replicate segments.length false
        ∧ get_valid_segments segments responses = []
        ∧ ∀ c : Nat, 0 < c →
            main_helper_filter_stage segments (some c) responses
              = .error "0 valid segments found") := by
  constructor
  · intro segments responses
    refine ⟨get_valid_segments_eq_zip_filter segments responses, ?_⟩
    rw [get_valid_segments_eq_zip_filter]
    have hlen : segments.length ≤ (get_valid_indices segments.length responses).length := by
      rw [get_valid_indices_length]
    have hsub : ((segments.zip (get_valid_indices segments.length responses)).filter
          (fun p => p.2)).map (fun p => p.1)
        |>.Sublist ((segments.zip (get_valid_indices segments.length responses)).map
          (fun p => p.1)) :=
      (List.filter_sublist _).map _
    have hfst : (segments.zip (get_valid_indices segments.length responses)).map
        (fun p => p.1) = segments := List.map_fst_zip _ _ hlen
    rw [hfst] at hsub
    exact hsub
  · intro segments url_is_valid responses hperm hfail
    have hallnone : ∀ r ∈ responses, r = none := fun r hr =>
      canonicalResponses_all_none _ url_is_valid hfail r (hperm.subset hr)
    have htbl := get_valid_indices_all_none segments.length responses hallnone
    refine ⟨htbl, ?_, ?_⟩
    · rw [get_valid_segments_eq_zip_filter, htbl]
      have : (segments.zip (List.replicate segments.length false)).filter
          (fun p => p.2) = [] := by
        rw [List.filter_eq_nil_iff]
        intro p hp
        have := (List.of_mem_zip hp).2
        have hb : p.2 = false := List.eq_of_mem_replicate this
        simp [hb]
      rw [this]
      rfl
    · intro c hc
      have hnil : get_valid_segments segments responses = [] := by
        rw [get_valid_segments_eq_zip_filter, htbl]
        have : (segments.zip (List.replicate segments.length false)).filter
            (fun p => p.2) = [] := by
          rw [List.filter_eq_nil_iff]
          intro p hp
          have := (List.of_mem_zip hp).2
          have hb : p.2 = false := List.eq_of_mem_replicate this
          simp [hb]
        rw [this]
        rfl
      simp [main_helper_filter_stage, hc, hnil]

theorem segment_filter_spec_witness :
    get_valid_indices 2 [none, none] = List.replicate 2 false
    ∧ get_valid_segments [MediaSegment.mk "a".toList, MediaSegment.mk "b".toList]
        [none, none] = []
    ∧ main_helper_filter_stage [MediaSegment.mk "a".toList, MediaSegment.mk "b".toList]
        (some 4) [none, none] = .error "0 valid segments found" := by
  have h := segment_filter_spec.2
    [MediaSegment.mk "a".toList, MediaSegment.mk "b".toList]
    (fun _ => false) [none, none] (by decide) (by decide)
  exact ⟨h.1, h.2.1, h.2.2 4 (by decide)⟩

/-- C9: `mute_uri` maps "foo-unmuted" to "foo-muted.ts" and leaves every
URI without the substring "-unmuted" unchanged. -/
theorem mute_uri_spec :
    String.mk (mute_uri "foo-unmuted".toList) = "foo-muted.ts"
    ∧ ∀ uri : List Char, ¬ ("-unmuted".toList <:+: uri) → mute_uri uri = uri := by
  refine ⟨by decide, ?_⟩
  intro uri h
  have hnone : findSubstr ("-unmuted".toList) uri = none :=
    (findSubstr_eq_none_iff _ uri).mpr h
  rw [mute_uri, hnone]

theorem mute_uri_spec_witness :
    String.mk (mute_uri "foo-unmuted".toList) = "foo-muted.ts"
    ∧ mute_uri "1234-v1.ts".toList = "1234-v1.ts".toList :=
  ⟨mute_uri_spec.1, mute_uri_spec.2 ("1234-v1.ts".toList)
    ((findSubstr_eq_none_iff _ _).mp (by decide))⟩

/-- C10: on any URI containing "-unmuted", `mute_uri` replaces everything
from the first occurrence to the end of the string with "-muted.ts",
dropping any trailing characters; e.g. "seg-unmuted.ts" becomes
"seg-muted.ts". -/
theorem mute_uri_replaces_from_first_occurrence :
    (∀ uri : List Char, "-unmuted".toList <:+: uri →
      ∃ i, mute_uri uri = uri.take i ++ "-muted.ts".toList
        ∧ "-unmuted".toList <+: uri.drop i
        ∧ ∀ j, j < i → ¬ "-unmuted".toList <+: uri.drop j)
    ∧ String.mk (mute_uri "seg-unmuted.ts".toList) = "seg-muted.ts" := by
  constructor
  · intro uri h
    cases hfind : findSubstr ("-unmuted".toList) uri with
    | none => exact absurd ((findSubstr_eq_none_iff _ uri).mp hfind) (not_not.mpr h)
    | some i =>
      obtain ⟨hocc, hmin⟩ := findSubstr_some _ uri i hfind
      refine ⟨i, ?_, hocc, hmin⟩
      rw [mute_uri, hfind]
  · decide

theorem mute_uri_replaces_from_first_occurrence_witness :
    ∃ i, mute_uri "abc-unmuted-v1.ts".toList
        = ("abc-unmuted-v1.ts".toList).take i ++ "-muted.ts".toList
      ∧ "-unmuted".toList <+: ("abc-unmuted-v1.ts".toList).drop i
      ∧ ∀ j, j < i → ¬ "-unmuted".toList <+: ("abc-unmuted-v1.ts".toList).drop j :=
  mute_uri_replaces_from_first_occurrence.1 ("abc-unmuted-v1.ts".toList)
    ⟨"abc".toList, "-v1.ts".toList, by decide⟩

set_option maxRecDepth 100000 in
/-- C7: parsing inverts generation: for any video data whose video id has
no underscore and whose timestamp lies in the representable range,
`url_path_to_video_data` recovers the streamer name (which may itself
contain underscores), the video id, and the timestamp from the generated
unix-mode path; parsing the reference path recovers the gmhikaru
triple. -/
theorem url_path_roundtrip :
    (∀ (S V : List Char) (t : Int), '_' ∉ V →
      naiveDateTimeMin ≤ t → t ≤ naiveDateTimeMax →
      url_path_to_video_data ((VideoData.mk S V t).get_url_path true)
        = .ok (VideoData.mk S V t))
    ∧ url_path_to_video_data
        ("c5992ececce7bd7d350d_gmhikaru_47198535725_1664038929".toList)
      = .ok (VideoData.mk ("gmhikaru".toList) ("47198535725".toList) 1664038929) := by
  constructor
  · intro S V t hV hlo hhi
    have hpath : (VideoData.mk S V t).get_url_path true
        = (hexEncode (sha1 (strBytes (S ++ '_' :: (V ++ '_' :: intToChars t))))).take 20
          ++ '_' :: (S ++ '_' :: (V ++ '_' :: intToChars t)) := by
      rw [VideoData.get_url_path, if_pos rfl]
      simp only [VideoData.get_url_path_helper]
      simp [List.cons_append, List.append_assoc]
    rw [hpath, url_path_to_video_data_decompose _ _ _ _
      (hash_no_underscore _) hV (intToChars_no_underscore t)]
    have hlo' : (-8334632851200 : Int) ≤ t := hlo
    have hhi' : t ≤ (8210298412799 : Int) := hhi
    rw [parseInt64_intToChars t (by omega) (by omega)]
    simp only [from_timestamp_opt]
    rw [if_pos ⟨hlo, hhi⟩]
  · decide

theorem url_path_roundtrip_witness :
    url_path_to_video_data ((VideoData.mk ("st".toList) ("1".toList) 5).get_url_path true)
      = .ok (VideoData.mk ("st".toList) ("1".toList) 5) :=
  url_path_roundtrip.1 ("st".toList) ("1".toList) 5 (by decide) (by decide) (by decide)

end Vods
